import Mathlib

/-!
Verification of the distributed k-means clustering engine (Lloyd's algorithm
with k-means++ seeding).  The repository's source is an exercise notebook: it
fixes the data model, the mathematical definitions (squared-Euclidean
assignment, heterogeneity) and the driver-loop pseudo-code
(`assignement_step`, `update_step_sum`, `update_step_mean`, the
`for itr in range(maxiter)` driver), but leaves the bodies of those operations
to the implementer.  The operation bodies below are therefore modelled from
the specification's own words; points and centroids carry exact rational
coordinates.
-/

namespace KMeansSpec

/-- A d-dimensional point: a fixed-length real vector, embedded with rational
coordinates. -/
abbrev Vec (d : ℕ) : Type := Fin d → ℚ

/-- The zero vector, used only as a `getD` default. -/
def zv (d : ℕ) : Vec d := fun _ => 0

/-- Squared Euclidean distance between two d-dimensional vectors. -/
def sqDist {d : ℕ} (x y : Vec d) : ℚ := ∑ i, (x i - y i) ^ 2

theorem sqDist_nonneg {d : ℕ} (x y : Vec d) : 0 ≤ sqDist x y :=
  Finset.sum_nonneg fun i _ => sq_nonneg (x i - y i)

theorem sqDist_eq_zero_iff {d : ℕ} (x y : Vec d) : sqDist x y = 0 ↔ x = y := by
  constructor
  · intro h
    funext i
    have h0 : ∀ j ∈ Finset.univ, (0:ℚ) ≤ (x j - y j) ^ 2 := fun j _ => sq_nonneg _
    have := (Finset.sum_eq_zero_iff_of_nonneg h0).1 h i (Finset.mem_univ i)
    have := pow_eq_zero_iff (n := 2) (by norm_num) |>.1 this
    linarith [sub_eq_zero.1 this]
  · intro h; subst h; simp [sqDist]

/-- Modelled from the spec: the Assignment Mapper's per-point rule ("compute
squared Euclidean distance to every centroid in the snapshot; assign to the
minimum; tie-break by lowest centroid id").  `assign p cents` is the id
(list index) of the chosen centroid; on the empty snapshot it returns 0. -/
def assign {d : ℕ} (p : Vec d) : List (Vec d) → ℕ
  | [] => 0
  | c :: rest =>
    match rest with
    | [] => 0
    | r :: rs =>
      let j := assign p (r :: rs)
      if sqDist p ((r :: rs).getD j (zv d)) < sqDist p c then j + 1 else 0

theorem assign_lt_length {d : ℕ} (p : Vec d) (cents : List (Vec d))
    (h : cents ≠ []) : assign p cents < cents.length := by
  induction cents with
  | nil => simp at h
  | cons c rest ih =>
    cases rest with
    | nil => simp [assign]
    | cons r rs =>
      have hlt := ih (by simp)
      simp only [assign]
      split
      · simpa using Nat.succ_lt_succ hlt
      · simp

/-- The distance from `p` to its assigned centroid is minimal over the whole
snapshot. -/
theorem assign_min {d : ℕ} (p : Vec d) (cents : List (Vec d)) :
    ∀ j < cents.length,
      sqDist p (cents.getD (assign p cents) (zv d)) ≤ sqDist p (cents.getD j (zv d)) := by
  induction cents with
  | nil => intro j hj; simp at hj
  | cons c rest ih =>
    intro j hj
    cases rest with
    | nil =>
      cases j with
      | zero => simp [assign]
      | succ j' => simp at hj
    | cons r rs =>
      by_cases hcl : sqDist p ((r :: rs).getD (assign p (r :: rs)) (zv d)) < sqDist p c
      · rw [show assign p (c :: r :: rs) = assign p (r :: rs) + 1 by
          rw [assign]; exact if_pos hcl]
        cases j with
        | zero => simpa [List.getD] using le_of_lt hcl
        | succ j' =>
          have := ih j' (by simpa using Nat.lt_of_succ_lt_succ hj)
          simpa [List.getD] using this
      · rw [show assign p (c :: r :: rs) = 0 by rw [assign]; exact if_neg hcl]
        push_neg at hcl
        cases j with
        | zero => simp [List.getD]
        | succ j' =>
          have := ih j' (by simpa using Nat.lt_of_succ_lt_succ hj)
          calc sqDist p (((c :: r :: rs)).getD 0 (zv d)) = sqDist p c := by simp [List.getD]
            _ ≤ sqDist p ((r :: rs).getD (assign p (r :: rs)) (zv d)) := hcl
            _ ≤ _ := by simpa [List.getD] using this

/-- Tie-break: every centroid with a strictly smaller id than the assigned one
is strictly farther, so on ties the lowest centroid id wins. -/
theorem assign_tiebreak {d : ℕ} (p : Vec d) (cents : List (Vec d)) :
    ∀ j < assign p cents,
      sqDist p (cents.getD (assign p cents) (zv d)) < sqDist p (cents.getD j (zv d)) := by
  induction cents with
  | nil => intro j hj; simp [assign] at hj
  | cons c rest ih =>
    intro j hj
    cases rest with
    | nil => simp [assign] at hj
    | cons r rs =>
      by_cases hcl : sqDist p ((r :: rs).getD (assign p (r :: rs)) (zv d)) < sqDist p c
      · rw [show assign p (c :: r :: rs) = assign p (r :: rs) + 1 by
          rw [assign]; exact if_pos hcl] at hj ⊢
        cases j with
        | zero => simpa [List.getD] using hcl
        | succ j' =>
          have := ih j' (Nat.lt_of_succ_lt_succ hj)
          simpa [List.getD] using this
      · rw [show assign p (c :: r :: rs) = 0 by rw [assign]; exact if_neg hcl] at hj
        simp at hj

/-- The points of `points` assigned to centroid id `j` under snapshot
`cents` (the Assignment relation, recomputed every iteration). -/
def cluster {d : ℕ} (points cents : List (Vec d)) (j : ℕ) : List (Vec d) :=
  points.filter (fun q => assign q cents == j)

/-- Elementwise sum of a list of vectors (the per-centroid sum the
Assignment Mapper emits). -/
def clusterSum {d : ℕ} (ps : List (Vec d)) : Vec d := fun i => (ps.map (fun q => q i)).sum

/-- Modelled from the spec: the Centroid Updater's mean, "new centroid
vector = sum / count". -/
def centroidMean {d : ℕ} (ps : List (Vec d)) : Vec d :=
  fun i => clusterSum ps i / (ps.length : ℚ)

/-- Squared distance from `q` to its nearest centroid in `cents`. -/
def minDistTo {d : ℕ} (cents : List (Vec d)) (q : Vec d) : ℚ :=
  sqDist q (cents.getD (assign q cents) (zv d))

/-- Modelled from the spec: the reinitialization policy's choice, "the point
(across the full dataset) currently farthest from its nearest surviving
centroid"; the earliest such point wins ties. -/
def farthest {d : ℕ} (cents : List (Vec d)) : List (Vec d) → Vec d
  | [] => zv d
  | [q] => q
  | q :: r :: rs =>
    let b := farthest cents (r :: rs)
    if minDistTo cents q < minDistTo cents b then b else q

/-- The updated positions of the surviving centroids (those whose cluster
received at least one point). -/
def survivorMeans {d : ℕ} (points cents : List (Vec d)) : List (Vec d) :=
  ((List.range cents.length).filter (fun j => !((cluster points cents j).length == 0))).map
    (fun j => centroidMean (cluster points cents j))

/-- Modelled from the spec: the Centroid Updater on one centroid id — mean of
the assigned points when the count is positive, farthest-point
reinitialization for a degenerate empty cluster. -/
def updateCentroid {d : ℕ} (points cents : List (Vec d)) (j : ℕ) : Vec d :=
  if (cluster points cents j).length = 0 then farthest (survivorMeans points cents) points
  else centroidMean (cluster points cents j)

/-- Modelled from the spec: one Lloyd iteration (assignment step followed by
update step) producing the next centroid set; centroid ids are stable. -/
def lloydStep {d : ℕ} (points cents : List (Vec d)) : List (Vec d) :=
  (List.range cents.length).map (updateCentroid points cents)

/-- Modelled from the spec: the Heterogeneity Evaluator, "Σ over all points of
squared distance to its assigned centroid". -/
def heterogeneity {d : ℕ} (points cents : List (Vec d)) : ℚ :=
  (points.map (fun q => minDistTo cents q)).sum

theorem farthest_mem {d : ℕ} (cents points : List (Vec d)) (h : points ≠ []) :
    farthest cents points ∈ points := by
  induction points with
  | nil => simp at h
  | cons q rest ih =>
    cases rest with
    | nil => simp [farthest]
    | cons r rs =>
      rw [farthest]
      split
      · exact List.mem_cons_of_mem q (ih (by simp))
      · simp

theorem farthest_max {d : ℕ} (cents points : List (Vec d)) :
    ∀ q ∈ points, minDistTo cents q ≤ minDistTo cents (farthest cents points) := by
  induction points with
  | nil => intro q hq; simp at hq
  | cons q rest ih =>
    intro x hx
    cases rest with
    | nil =>
      simp only [List.mem_singleton] at hx
      simp_all [farthest]
    | cons r rs =>
      rw [farthest]
      split
      · rename_i hlt
        rcases List.mem_cons.1 hx with hx | hx
        · subst hx; exact le_of_lt hlt
        · exact ih x hx
      · rename_i hlt
        push_neg at hlt
        rcases List.mem_cons.1 hx with hx | hx
        · subst hx; exact le_refl _
        · exact le_trans (ih x hx) hlt

theorem length_lloydStep {d : ℕ} (points cents : List (Vec d)) :
    (lloydStep points cents).length = cents.length := by
  simp [lloydStep]

theorem lloydStep_getD {d : ℕ} (points cents : List (Vec d)) (j : ℕ)
    (hj : j < cents.length) :
    (lloydStep points cents).getD j (zv d) = updateCentroid points cents j := by
  rw [lloydStep, List.getD_eq_getElem?_getD, List.getElem?_map, List.getElem?_range hj]
  rfl

theorem sum_sq_shift (xs : List ℚ) (c : ℚ) :
    (xs.map (fun x => (x - c) ^ 2)).sum
      = (xs.map (fun x => x ^ 2)).sum - 2 * c * xs.sum + (xs.length : ℚ) * c ^ 2 := by
  induction xs with
  | nil => simp
  | cons x rest ih =>
    simp only [List.map_cons, List.sum_cons, ih, List.length_cons]
    push_cast
    ring

/-- The mean of a list of rationals minimizes the sum of squared deviations. -/
theorem sum_sq_mean_le (xs : List ℚ) (h : xs ≠ []) (c : ℚ) :
    (xs.map (fun x => (x - xs.sum / (xs.length : ℚ)) ^ 2)).sum
      ≤ (xs.map (fun x => (x - c) ^ 2)).sum := by
  have hn : (0:ℚ) < (xs.length : ℚ) := by
    have := List.length_pos.2 h
    exact_mod_cast this
  have hne : (xs.length : ℚ) ≠ 0 := ne_of_gt hn
  rw [sum_sq_shift, sum_sq_shift]
  have h2 : 0 ≤ (((xs.length : ℚ) * c - xs.sum) ^ 2) / (xs.length : ℚ) :=
    div_nonneg (sq_nonneg _) (le_of_lt hn)
  have hid : -(2 * (xs.sum / (xs.length : ℚ)) * xs.sum)
        + (xs.length : ℚ) * (xs.sum / (xs.length : ℚ)) ^ 2
        + (((xs.length : ℚ) * c - xs.sum) ^ 2) / (xs.length : ℚ)
      = -(2 * c * xs.sum) + (xs.length : ℚ) * c ^ 2 := by
    field_simp
    ring
  linarith

theorem list_sum_finsum_comm {d : ℕ} (ps : List (Vec d)) (f : Vec d → Fin d → ℚ) :
    (ps.map (fun q => ∑ i, f q i)).sum = ∑ i, (ps.map (fun q => f q i)).sum := by
  induction ps with
  | nil => simp
  | cons q rest ih =>
    simp [ih, Finset.sum_add_distrib]

/-- The coordinatewise mean of a nonempty list of vectors minimizes the total
squared Euclidean distance to the list. -/
theorem mean_min {d : ℕ} (S : List (Vec d)) (h : S ≠ []) (c : Vec d) :
    (S.map (fun q => sqDist q (centroidMean S))).sum ≤ (S.map (fun q => sqDist q c)).sum := by
  show (S.map (fun q => ∑ i, (q i - centroidMean S i) ^ 2)).sum
      ≤ (S.map (fun q => ∑ i, (q i - c i) ^ 2)).sum
  rw [list_sum_finsum_comm, list_sum_finsum_comm]
  apply Finset.sum_le_sum
  intro i _
  have hxs : (S.map fun q => q i) ≠ [] := by simpa using h
  have hm := sum_sq_mean_le (S.map fun q => q i) hxs (c i)
  rw [List.map_map, List.map_map] at hm
  simpa [Function.comp, centroidMean, clusterSum] using hm

/-- Summing a per-point quantity that depends only on the point and its
assigned centroid id can be regrouped as a sum over clusters. -/
theorem sum_by_cluster {d : ℕ} (points cents : List (Vec d)) (g : ℕ → Vec d → ℚ) (k : ℕ)
    (h : ∀ q ∈ points, assign q cents < k) :
    (points.map (fun q => g (assign q cents) q)).sum
      = ∑ j ∈ Finset.range k, ((cluster points cents j).map (g j)).sum := by
  induction points with
  | nil => simp [cluster]
  | cons q rest ih =>
    have ha : assign q cents < k := h q (List.mem_cons_self q rest)
    have ih' := ih (fun x hx => h x (List.mem_cons_of_mem q hx))
    simp only [List.map_cons, List.sum_cons, ih']
    have hcl : ∀ j, cluster (q :: rest) cents j
        = if assign q cents = j then q :: cluster rest cents j else cluster rest cents j := by
      intro j
      simp only [cluster, List.filter_cons]
      by_cases hqj : assign q cents = j
      · simp [hqj]
      · simp [hqj]
    have hterm : ∀ j,
        ((if assign q cents = j then q :: cluster rest cents j else cluster rest cents j).map
            (g j)).sum
          = (if assign q cents = j then g j q else 0)
              + ((cluster rest cents j).map (g j)).sum := by
      intro j
      by_cases hqj : assign q cents = j
      · simp [hqj]
      · simp [hqj]
    have hsum : ∑ j ∈ Finset.range k, ((cluster (q :: rest) cents j).map (g j)).sum
        = ∑ j ∈ Finset.range k, ((if assign q cents = j then g j q else 0)
            + ((cluster rest cents j).map (g j)).sum) :=
      Finset.sum_congr rfl (fun j _ => by rw [hcl j, hterm j])
    rw [hsum, Finset.sum_add_distrib, Finset.sum_ite_eq]
    simp [Finset.mem_range.2 ha]

/-- One Lloyd iteration never increases heterogeneity: reassignment can only
shrink each point's term, and each nonempty cluster's new centroid is the
mean, which minimizes the within-cluster sum of squares; empty clusters carry
no term under the old assignment, so reinitialization costs nothing. -/
theorem het_step {d : ℕ} (points cents : List (Vec d)) (h : cents ≠ []) :
    heterogeneity points (lloydStep points cents) ≤ heterogeneity points cents := by
  have hk : ∀ q ∈ points, assign q cents < cents.length :=
    fun q _ => assign_lt_length q cents h
  have hlen : (lloydStep points cents).length = cents.length := length_lloydStep points cents
  have stepA : heterogeneity points (lloydStep points cents)
      ≤ (points.map (fun q =>
          sqDist q ((lloydStep points cents).getD (assign q cents) (zv d)))).sum := by
    apply List.sum_le_sum
    intro q hq
    exact assign_min q (lloydStep points cents) (assign q cents) (hlen ▸ hk q hq)
  have stepB : (points.map (fun q =>
        sqDist q ((lloydStep points cents).getD (assign q cents) (zv d)))).sum
      = ∑ j ∈ Finset.range cents.length,
          ((cluster points cents j).map
            (fun q => sqDist q ((lloydStep points cents).getD j (zv d)))).sum :=
    sum_by_cluster points cents
      (fun j q => sqDist q ((lloydStep points cents).getD j (zv d))) cents.length hk
  have stepC : ∑ j ∈ Finset.range cents.length,
        ((cluster points cents j).map
          (fun q => sqDist q ((lloydStep points cents).getD j (zv d)))).sum
      ≤ ∑ j ∈ Finset.range cents.length,
          ((cluster points cents j).map (fun q => sqDist q (cents.getD j (zv d)))).sum := by
    apply Finset.sum_le_sum
    intro j hj
    by_cases hemp : (cluster points cents j).length = 0
    · rw [List.length_eq_zero.1 hemp]
      simp
    · have hne : cluster points cents j ≠ [] := fun hc => hemp (by simp [hc])
      rw [lloydStep_getD points cents j (Finset.mem_range.1 hj), updateCentroid, if_neg hemp]
      exact mean_min (cluster points cents j) hne (cents.getD j (zv d))
  have stepD : ∑ j ∈ Finset.range cents.length,
        ((cluster points cents j).map (fun q => sqDist q (cents.getD j (zv d)))).sum
      = heterogeneity points cents := by
    rw [← sum_by_cluster points cents (fun j q => sqDist q (cents.getD j (zv d)))
      cents.length hk]
    rfl
  calc heterogeneity points (lloydStep points cents)
      ≤ _ := stepA
    _ = _ := stepB
    _ ≤ _ := stepC
    _ = heterogeneity points cents := stepD

/-- C1: for every dataset, every starting centroid set and every pair of
consecutive iterations of the clustering loop, the heterogeneity (total
within-cluster sum of squared distances) after the later iteration is at most
the heterogeneity after the earlier iteration. -/
theorem heterogeneity_nonincreasing {d : ℕ} (points cents : List (Vec d))
    (h : cents ≠ []) (t : ℕ) :
    heterogeneity points ((fun cs => lloydStep points cs)^[t + 1] cents)
      ≤ heterogeneity points ((fun cs => lloydStep points cs)^[t] cents) := by
  have hne : ∀ n : ℕ, (fun cs => lloydStep points cs)^[n] cents ≠ [] := by
    intro n
    induction n with
    | zero => simpa using h
    | succ n ihn =>
      rw [Function.iterate_succ_apply']
      intro hc
      have hlen := length_lloydStep points ((fun cs => lloydStep points cs)^[n] cents)
      rw [hc, List.length_nil] at hlen
      exact ihn (List.length_eq_zero.1 hlen.symm)
  rw [Function.iterate_succ_apply']
  exact het_step points _ (hne t)

/-- Concrete instantiation of `heterogeneity_nonincreasing` at a one-point
dataset in dimension 1. -/
theorem heterogeneity_nonincreasing_witness :
    (([fun _ => (0:ℚ)] : List (Vec 1)) ≠ []) ∧
      heterogeneity ([fun _ => (3:ℚ)] : List (Vec 1))
          ((fun cs => lloydStep ([fun _ => (3:ℚ)] : List (Vec 1)) cs)^[0 + 1]
            [fun _ => (0:ℚ)])
        ≤ heterogeneity ([fun _ => (3:ℚ)] : List (Vec 1))
          ((fun cs => lloydStep ([fun _ => (3:ℚ)] : List (Vec 1)) cs)^[0]
            [fun _ => (0:ℚ)]) :=
  ⟨List.cons_ne_nil _ _,
    heterogeneity_nonincreasing _ _ (List.cons_ne_nil _ _) 0⟩

/-- Modelled from the spec: per-centroid displacement between two snapshots,
measured as squared Euclidean distance from old to new position; `maxDisp` is
the maximum over all centroid ids. -/
def maxDisp {d : ℕ} (old upd : List (Vec d)) : ℚ :=
  (List.zipWith sqDist old upd).foldr max 0

/-- The Convergence Controller's states. -/
inductive RunState where
  | running : RunState
  | converged : RunState
  | budgetExhausted : RunState
deriving DecidableEq

/-- Modelled from the spec: the Convergence Controller's transition function.
From `running` it moves to `converged` when the maximum per-centroid
displacement falls below the tolerance, otherwise to `budgetExhausted` when
the iteration count has reached the budget; `converged` and
`budgetExhausted` are terminal. -/
def stepState (tol : ℚ) (maxIter iter : ℕ) (disp : ℚ) : RunState → RunState
  | .running =>
    if disp < tol then .converged
    else if maxIter ≤ iter then .budgetExhausted
    else .running
  | s => s

/-- What the driver reports on termination: final centroid set, iteration
count, terminal condition, final heterogeneity. -/
structure RunResult (d : ℕ) where
  cents : List (Vec d)
  iters : ℕ
  reason : RunState
  het : ℚ

/-- Modelled from the spec and the notebook's driver pseudo-code
(`for itr in range(maxiter)` with a stop condition): the serial clustering
loop, structurally bounded by the iteration budget (the fuel argument). -/
def serialLoop {d : ℕ} (points : List (Vec d)) (tol : ℚ) :
    ℕ → List (Vec d) → ℕ → RunResult d
  | 0, cents, done => ⟨cents, done, .budgetExhausted, heterogeneity points cents⟩
  | fuel + 1, cents, done =>
    let nxt := lloydStep points cents
    if maxDisp cents nxt < tol then ⟨nxt, done + 1, .converged, heterogeneity points nxt⟩
    else serialLoop points tol fuel nxt (done + 1)

/-- The serial driver: run the loop from the initial centroids with the full
iteration budget. -/
def serialRun {d : ℕ} (points cents : List (Vec d)) (maxIter : ℕ) (tol : ℚ) : RunResult d :=
  serialLoop points tol maxIter cents 0

/-- A PartialAggregate: per centroid id, the elementwise vector sum and the
count of the points assigned to it. -/
def PartialAgg (d : ℕ) : Type := ℕ → Vec d × ℕ

/-- The aggregate of an empty partition. -/
def emptyAgg (d : ℕ) : PartialAgg d := fun _ => (zv d, 0)

/-- Modelled from the spec and the pseudo-code's `assignement_step`: the
Assignment Mapper on one partition — for each centroid id, the elementwise
sum of the vectors of the points assigned to it and their count, a pure
function of the partition contents and the broadcast centroid snapshot. -/
def assignmentMapper {d : ℕ} (cents part : List (Vec d)) : PartialAgg d :=
  fun j => (clusterSum (cluster part cents j), (cluster part cents j).length)

/-- Modelled from the spec and the pseudo-code's `update_step_sum`: the
Aggregation Reducer's combine — elementwise vector addition of sums and
addition of counts, keyed by centroid id. -/
def combine {d : ℕ} (a b : PartialAgg d) : PartialAgg d :=
  fun j => (fun i => (a j).1 i + (b j).1 i, (a j).2 + (b j).2)

/-- Reduce a list of partial aggregates. -/
def reduceAll {d : ℕ} (l : List (PartialAgg d)) : PartialAgg d :=
  l.foldr combine (emptyAgg d)

/-- Modelled from the spec and the pseudo-code's `update_step_mean`: the new
position of centroid id `j` derived from a global aggregate, sum / count. -/
def aggMean {d : ℕ} (a : Vec d × ℕ) : Vec d := fun i => a.1 i / (a.2 : ℚ)

/-- Surviving centroids (count > 0) at their updated positions, read off a
global aggregate. -/
def survivorMeansAgg {d : ℕ} (A : PartialAgg d) (k : ℕ) : List (Vec d) :=
  ((List.range k).filter (fun j => !((A j).2 == 0))).map (fun j => aggMean (A j))

/-- The Centroid Updater on a global aggregate: sum / count when the count is
positive, farthest-point reinitialization for an empty cluster. -/
def updateFromAgg {d : ℕ} (A : PartialAgg d) (k : ℕ) (allPoints : List (Vec d)) (j : ℕ) :
    Vec d :=
  if (A j).2 = 0 then farthest (survivorMeansAgg A k) allPoints else aggMean (A j)

/-- Modelled from the spec and the driver pseudo-code: one distributed
iteration — map the Assignment Mapper over the partitions, reduce the partial
aggregates by key, and update each centroid from the global aggregate. -/
def distStep {d : ℕ} (parts : List (List (Vec d))) (cents : List (Vec d)) : List (Vec d) :=
  (List.range cents.length).map
    (updateFromAgg (reduceAll (parts.map (assignmentMapper cents))) cents.length parts.flatten)

/-- Modelled from the spec: the distributed Heterogeneity Evaluator — a
per-partition map of local heterogeneity followed by a sum reduction. -/
def hetParts {d : ℕ} (parts : List (List (Vec d))) (cents : List (Vec d)) : ℚ :=
  (parts.map (fun part => heterogeneity part cents)).sum

/-- The distributed clustering loop over a fixed partitioning. -/
def distLoop {d : ℕ} (parts : List (List (Vec d))) (tol : ℚ) :
    ℕ → List (Vec d) → ℕ → RunResult d
  | 0, cents, done => ⟨cents, done, .budgetExhausted, hetParts parts cents⟩
  | fuel + 1, cents, done =>
    let nxt := distStep parts cents
    if maxDisp cents nxt < tol then ⟨nxt, done + 1, .converged, hetParts parts nxt⟩
    else distLoop parts tol fuel nxt (done + 1)

/-- The distributed driver over a fixed partitioning. -/
def distRun {d : ℕ} (parts : List (List (Vec d))) (cents : List (Vec d)) (maxIter : ℕ)
    (tol : ℚ) : RunResult d :=
  distLoop parts tol maxIter cents 0

theorem combine_assoc {d : ℕ} (a b c : PartialAgg d) :
    combine (combine a b) c = combine a (combine b c) := by
  funext j
  rw [Prod.ext_iff]
  exact ⟨funext fun i => add_assoc _ _ _, add_assoc _ _ _⟩

theorem combine_comm {d : ℕ} (a b : PartialAgg d) : combine a b = combine b a := by
  funext j
  rw [Prod.ext_iff]
  exact ⟨funext fun i => add_comm _ _, add_comm _ _⟩

theorem assignmentMapper_append {d : ℕ} (cents l₁ l₂ : List (Vec d)) :
    assignmentMapper cents (l₁ ++ l₂)
      = combine (assignmentMapper cents l₁) (assignmentMapper cents l₂) := by
  funext j
  rw [Prod.ext_iff]
  constructor
  · funext i
    show clusterSum (cluster (l₁ ++ l₂) cents j) i = _
    simp [cluster, clusterSum, List.filter_append, combine, assignmentMapper]
  · show (cluster (l₁ ++ l₂) cents j).length = _
    simp [cluster, List.filter_append, combine, assignmentMapper]

theorem assignmentMapper_perm {d : ℕ} (cents : List (Vec d)) {l₁ l₂ : List (Vec d)}
    (h : l₁.Perm l₂) : assignmentMapper cents l₁ = assignmentMapper cents l₂ := by
  funext j
  have hp : (cluster l₁ cents j).Perm (cluster l₂ cents j) := h.filter _
  rw [Prod.ext_iff]
  constructor
  · funext i
    show ((cluster l₁ cents j).map fun q => q i).sum = ((cluster l₂ cents j).map fun q => q i).sum
    exact (hp.map fun q => q i).sum_eq
  · exact hp.length_eq

/-- Reducing the per-partition partial aggregates yields the aggregate of the
whole dataset. -/
theorem reduceAll_eq_mapper {d : ℕ} (cents : List (Vec d)) (parts : List (List (Vec d))) :
    reduceAll (parts.map (assignmentMapper cents)) = assignmentMapper cents parts.flatten := by
  induction parts with
  | nil =>
    funext j
    rw [Prod.ext_iff]
    exact ⟨funext fun i => rfl, rfl⟩
  | cons part rest ih =>
    simp only [List.map_cons, List.flatten_cons, reduceAll, List.foldr_cons]
    rw [show List.foldr combine (emptyAgg d) (rest.map (assignmentMapper cents))
        = reduceAll (rest.map (assignmentMapper cents)) from rfl,
      ih, assignmentMapper_append]

/-- C2: the Assignment Mapper assigns every point of a partition to the
snapshot centroid at minimum squared Euclidean distance, with ties broken by
the lowest centroid id, and its partial aggregate is exactly the per-centroid
elementwise sum and count of the assigned points — a pure function of the
partition contents and the snapshot. -/
theorem assignment_mapper_spec {d : ℕ} (cents part : List (Vec d)) (h : cents ≠ []) :
    (∀ q ∈ part, assign q cents < cents.length ∧
      (∀ j < cents.length,
        sqDist q (cents.getD (assign q cents) (zv d)) ≤ sqDist q (cents.getD j (zv d))) ∧
      (∀ j < assign q cents,
        sqDist q (cents.getD (assign q cents) (zv d)) < sqDist q (cents.getD j (zv d)))) ∧
    (∀ j, assignmentMapper cents part j
      = (clusterSum (cluster part cents j), (cluster part cents j).length)) :=
  ⟨fun q _ => ⟨assign_lt_length q cents h, assign_min q cents, assign_tiebreak q cents⟩,
    fun _ => rfl⟩

/-- Concrete instantiation of `assignment_mapper_spec` with a two-centroid
snapshot in dimension 1. -/
theorem assignment_mapper_spec_witness :
    (∀ q ∈ ([fun _ => (4:ℚ)] : List (Vec 1)),
      assign q ([fun _ => (0:ℚ), fun _ => (10:ℚ)] : List (Vec 1))
          < ([fun _ => (0:ℚ), fun _ => (10:ℚ)] : List (Vec 1)).length ∧
      (∀ j < ([fun _ => (0:ℚ), fun _ => (10:ℚ)] : List (Vec 1)).length,
        sqDist q
            (([fun _ => (0:ℚ), fun _ => (10:ℚ)] : List (Vec 1)).getD
              (assign q ([fun _ => (0:ℚ), fun _ => (10:ℚ)] : List (Vec 1))) (zv 1))
          ≤ sqDist q (([fun _ => (0:ℚ), fun _ => (10:ℚ)] : List (Vec 1)).getD j (zv 1))) ∧
      (∀ j < assign q ([fun _ => (0:ℚ), fun _ => (10:ℚ)] : List (Vec 1)),
        sqDist q
            (([fun _ => (0:ℚ), fun _ => (10:ℚ)] : List (Vec 1)).getD
              (assign q ([fun _ => (0:ℚ), fun _ => (10:ℚ)] : List (Vec 1))) (zv 1))
          < sqDist q (([fun _ => (0:ℚ), fun _ => (10:ℚ)] : List (Vec 1)).getD j (zv 1)))) ∧
    (∀ j, assignmentMapper ([fun _ => (0:ℚ), fun _ => (10:ℚ)] : List (Vec 1))
        ([fun _ => (4:ℚ)] : List (Vec 1)) j
      = (clusterSum (cluster ([fun _ => (4:ℚ)] : List (Vec 1))
            ([fun _ => (0:ℚ), fun _ => (10:ℚ)] : List (Vec 1)) j),
          (cluster ([fun _ => (4:ℚ)] : List (Vec 1))
            ([fun _ => (0:ℚ), fun _ => (10:ℚ)] : List (Vec 1)) j).length)) :=
  assignment_mapper_spec _ _ (List.cons_ne_nil _ _)

/-- C3: the Aggregation Reducer's combine is associative and commutative, and
consequently the reduced global aggregate is the same for every partitioning
of a fixed dataset (any partition count, any arrival order) under a fixed
centroid snapshot. -/
theorem reducer_assoc_comm_invariant {d : ℕ} (cents : List (Vec d))
    (parts₁ parts₂ : List (List (Vec d))) (h : parts₁.flatten.Perm parts₂.flatten) :
    (∀ a b c : PartialAgg d, combine (combine a b) c = combine a (combine b c)) ∧
    (∀ a b : PartialAgg d, combine a b = combine b a) ∧
    reduceAll (parts₁.map (assignmentMapper cents))
      = reduceAll (parts₂.map (assignmentMapper cents)) := by
  refine ⟨combine_assoc, combine_comm, ?_⟩
  rw [reduceAll_eq_mapper, reduceAll_eq_mapper]
  exact assignmentMapper_perm cents h

/-- Concrete instantiation of `reducer_assoc_comm_invariant`: one partition
versus two, same dataset. -/
theorem reducer_assoc_comm_invariant_witness :
    (∀ a b c : PartialAgg 1, combine (combine a b) c = combine a (combine b c)) ∧
    (∀ a b : PartialAgg 1, combine a b = combine b a) ∧
    reduceAll (([[fun _ => (4:ℚ), fun _ => (20:ℚ)]] : List (List (Vec 1))).map
        (assignmentMapper ([fun _ => (0:ℚ), fun _ => (10:ℚ)] : List (Vec 1))))
      = reduceAll (([[fun _ => (4:ℚ)], [fun _ => (20:ℚ)]] : List (List (Vec 1))).map
        (assignmentMapper ([fun _ => (0:ℚ), fun _ => (10:ℚ)] : List (Vec 1)))) :=
  reducer_assoc_comm_invariant _ _ _ (List.Perm.refl _)

/-- C4: the Centroid Updater keeps exactly k centroids; every centroid id
with positive count gets the aggregated sum divided by the count, and every
centroid id with count zero is reinitialized to a point of the full dataset
that is farthest from its nearest surviving centroid — recovery, not
failure. -/
theorem centroid_updater_spec {d : ℕ} (points cents : List (Vec d)) (hp : points ≠ []) :
    (lloydStep points cents).length = cents.length ∧
    ∀ j < cents.length,
      ((cluster points cents j).length ≠ 0 →
        (lloydStep points cents).getD j (zv d)
          = fun i => clusterSum (cluster points cents j) i
              / ((cluster points cents j).length : ℚ)) ∧
      ((cluster points cents j).length = 0 →
        (lloydStep points cents).getD j (zv d) ∈ points ∧
        ∀ q ∈ points,
          minDistTo (survivorMeans points cents) q
            ≤ minDistTo (survivorMeans points cents)
                ((lloydStep points cents).getD j (zv d))) := by
  refine ⟨length_lloydStep points cents, fun j hj => ⟨?_, ?_⟩⟩
  · intro hc
    rw [lloydStep_getD points cents j hj, updateCentroid, if_neg hc]
    rfl
  · intro hc
    rw [lloydStep_getD points cents j hj, updateCentroid, if_pos hc]
    exact ⟨farthest_mem _ _ hp, fun q hq => farthest_max _ _ q hq⟩

/-- Concrete instantiation of `centroid_updater_spec` on a one-point dataset
with a two-centroid snapshot (the second cluster is empty and gets
reinitialized). -/
theorem centroid_updater_spec_witness :
    (lloydStep ([fun _ => (4:ℚ)] : List (Vec 1))
        ([fun _ => (0:ℚ), fun _ => (10:ℚ)] : List (Vec 1))).length
      = ([fun _ => (0:ℚ), fun _ => (10:ℚ)] : List (Vec 1)).length ∧
    ∀ j < ([fun _ => (0:ℚ), fun _ => (10:ℚ)] : List (Vec 1)).length,
      ((cluster ([fun _ => (4:ℚ)] : List (Vec 1))
          ([fun _ => (0:ℚ), fun _ => (10:ℚ)] : List (Vec 1)) j).length ≠ 0 →
        (lloydStep ([fun _ => (4:ℚ)] : List (Vec 1))
            ([fun _ => (0:ℚ), fun _ => (10:ℚ)] : List (Vec 1))).getD j (zv 1)
          = fun i => clusterSum (cluster ([fun _ => (4:ℚ)] : List (Vec 1))
                ([fun _ => (0:ℚ), fun _ => (10:ℚ)] : List (Vec 1)) j) i
              / ((cluster ([fun _ => (4:ℚ)] : List (Vec 1))
                ([fun _ => (0:ℚ), fun _ => (10:ℚ)] : List (Vec 1)) j).length : ℚ)) ∧
      ((cluster ([fun _ => (4:ℚ)] : List (Vec 1))
          ([fun _ => (0:ℚ), fun _ => (10:ℚ)] : List (Vec 1)) j).length = 0 →
        (lloydStep ([fun _ => (4:ℚ)] : List (Vec 1))
            ([fun _ => (0:ℚ), fun _ => (10:ℚ)] : List (Vec 1))).getD j (zv 1)
          ∈ ([fun _ => (4:ℚ)] : List (Vec 1)) ∧
        ∀ q ∈ ([fun _ => (4:ℚ)] : List (Vec 1)),
          minDistTo (survivorMeans ([fun _ => (4:ℚ)] : List (Vec 1))
              ([fun _ => (0:ℚ), fun _ => (10:ℚ)] : List (Vec 1))) q
            ≤ minDistTo (survivorMeans ([fun _ => (4:ℚ)] : List (Vec 1))
                ([fun _ => (0:ℚ), fun _ => (10:ℚ)] : List (Vec 1)))
                ((lloydStep ([fun _ => (4:ℚ)] : List (Vec 1))
                  ([fun _ => (0:ℚ), fun _ => (10:ℚ)] : List (Vec 1))).getD j (zv 1))) :=
  centroid_updater_spec _ _ (List.cons_ne_nil _ _)

theorem serialLoop_iters_le {d : ℕ} (points : List (Vec d)) (tol : ℚ) (fuel : ℕ)
    (cents : List (Vec d)) (done : ℕ) :
    (serialLoop points tol fuel cents done).iters ≤ done + fuel := by
  induction fuel generalizing cents done with
  | zero => simp [serialLoop]
  | succ fuel ih =>
    rw [serialLoop]
    split
    · simp
    · exact le_trans (ih _ _) (by omega)

theorem serialLoop_reason_ne_running {d : ℕ} (points : List (Vec d)) (tol : ℚ) (fuel : ℕ)
    (cents : List (Vec d)) (done : ℕ) :
    (serialLoop points tol fuel cents done).reason ≠ RunState.running := by
  induction fuel generalizing cents done with
  | zero => simp [serialLoop]
  | succ fuel ih =>
    rw [serialLoop]
    split
    · simp
    · exact ih _ _

/-- C10: the driver loop is structurally bounded by the iteration budget — on
every input with maxIterations = m it terminates after executing at most m
iterations, whether or not the convergence test ever succeeds. -/
theorem driver_loop_bounded {d : ℕ} (points cents : List (Vec d)) (m : ℕ) (tol : ℚ) :
    (serialRun points cents m tol).iters ≤ m := by
  simpa using serialLoop_iters_le points tol m cents 0

/-- C5 counterexample: when the displacement test and the budget condition
hold in the same iteration, the controller reports Converged, so the claim's
"transitions to BudgetExhausted exactly when the iteration count reaches the
configured maximum" fails at this input. -/
theorem convergence_controller_overlap :
    stepState 1 5 5 0 RunState.running = RunState.converged ∧
    stepState 1 5 5 0 RunState.running ≠ RunState.budgetExhausted := by
  have h1 : stepState 1 5 5 0 RunState.running = RunState.converged := by
    rw [stepState]
    norm_num
  exact ⟨h1, by rw [h1]; decide⟩

/-- C5 amended: the controller starts in Running; Converged and
BudgetExhausted are absorbing; from Running it moves to Converged exactly
when the maximum displacement is below the tolerance, and to BudgetExhausted
exactly when the budget is reached and the displacement test did not fire;
the driver loop always reports one of the two terminal conditions. -/
theorem convergence_controller_spec {d : ℕ} (tol : ℚ) (maxIter iter : ℕ) (disp : ℚ)
    (points cents : List (Vec d)) (fuel done : ℕ) :
    (stepState tol maxIter iter disp RunState.converged = RunState.converged) ∧
    (stepState tol maxIter iter disp RunState.budgetExhausted = RunState.budgetExhausted) ∧
    (stepState tol maxIter iter disp RunState.running = RunState.converged ↔ disp < tol) ∧
    (stepState tol maxIter iter disp RunState.running = RunState.budgetExhausted
      ↔ (¬ disp < tol ∧ maxIter ≤ iter)) ∧
    (serialLoop points tol fuel cents done).reason ≠ RunState.running := by
  refine ⟨rfl, rfl, ?_, ?_, serialLoop_reason_ne_running points tol fuel cents done⟩
  · rw [stepState]
    constructor
    · intro h
      by_contra hd
      rw [if_neg hd] at h
      split at h <;> simp at h
    · intro h
      rw [if_pos h]
  · rw [stepState]
    constructor
    · intro h
      by_cases hd : disp < tol
      · rw [if_pos hd] at h
        simp at h
      · rw [if_neg hd] at h
        refine ⟨hd, ?_⟩
        by_contra hm
        rw [if_neg (by omega)] at h
        simp at h
    · intro h
      rw [if_neg h.1, if_pos h.2]

/-- The distributed iteration computes exactly the serial Lloyd iteration on
the concatenated dataset. -/
theorem distStep_eq_lloydStep {d : ℕ} (parts : List (List (Vec d))) (cents : List (Vec d)) :
    distStep parts cents = lloydStep parts.flatten cents := by
  rw [distStep, reduceAll_eq_mapper]
  rfl

/-- Distributed heterogeneity (map over partitions, sum reduction) equals the
serial heterogeneity of the concatenated dataset. -/
theorem hetParts_eq {d : ℕ} (parts : List (List (Vec d))) (cents : List (Vec d)) :
    hetParts parts cents = heterogeneity parts.flatten cents := by
  induction parts with
  | nil => rfl
  | cons part rest ih =>
    simp only [hetParts, heterogeneity, List.map_cons, List.sum_cons, List.flatten_cons,
      List.map_append, List.sum_append] at ih ⊢
    rw [ih]

theorem distLoop_eq_serialLoop {d : ℕ} (parts : List (List (Vec d))) (tol : ℚ) (fuel : ℕ)
    (cents : List (Vec d)) (done : ℕ) :
    distLoop parts tol fuel cents done = serialLoop parts.flatten tol fuel cents done := by
  induction fuel generalizing cents done with
  | zero =>
    rw [distLoop, serialLoop, hetParts_eq]
  | succ fuel ih =>
    rw [distLoop, serialLoop]
    simp only [distStep_eq_lloydStep, hetParts_eq]
    split
    · rfl
    · exact ih _ _

/-- C8: for a fixed dataset, fixed initial centroids (fixed seed), budget and
tolerance, the distributed map/reduceByKey run over any partitioning — in
particular partitionCount = 1 versus partitionCount = 8 — reports exactly the
same final centroids, iteration count, termination reason and heterogeneity,
and refines the serial single-partition run. -/
theorem partition_count_invariance {d : ℕ} (parts₁ parts₂ : List (List (Vec d)))
    (cents : List (Vec d)) (m : ℕ) (tol : ℚ) (h : parts₁.flatten = parts₂.flatten) :
    distRun parts₁ cents m tol = distRun parts₂ cents m tol ∧
    distRun parts₁ cents m tol = serialRun parts₁.flatten cents m tol := by
  constructor
  · rw [distRun, distRun, distLoop_eq_serialLoop, distLoop_eq_serialLoop, h]
  · rw [distRun, serialRun, distLoop_eq_serialLoop]

/-- Concrete instantiation of `partition_count_invariance`: one partition
versus two, same dataset. -/
theorem partition_count_invariance_witness :
    distRun ([[fun _ => (4:ℚ), fun _ => (20:ℚ)]] : List (List (Vec 1)))
        ([fun _ => (0:ℚ), fun _ => (10:ℚ)] : List (Vec 1)) 3 1
      = distRun ([[fun _ => (4:ℚ)], [fun _ => (20:ℚ)]] : List (List (Vec 1)))
        ([fun _ => (0:ℚ), fun _ => (10:ℚ)] : List (Vec 1)) 3 1 ∧
    distRun ([[fun _ => (4:ℚ), fun _ => (20:ℚ)]] : List (List (Vec 1)))
        ([fun _ => (0:ℚ), fun _ => (10:ℚ)] : List (Vec 1)) 3 1
      = serialRun ([[fun _ => (4:ℚ), fun _ => (20:ℚ)]] : List (List (Vec 1))).flatten
        ([fun _ => (0:ℚ), fun _ => (10:ℚ)] : List (Vec 1)) 3 1 :=
  partition_count_invariance _ _ _ _ _ rfl

theorem le_foldr_max (l : List ℚ) : ∀ x ∈ l, x ≤ l.foldr max 0 := by
  induction l with
  | nil => intro x hx; simp at hx
  | cons a rest ih =>
    intro x hx
    rcases List.mem_cons.1 hx with hx | hx
    · subst hx; exact le_max_left _ _
    · exact le_trans (ih x hx) (le_max_right _ _)

/-- A zero maximum displacement forces the updated centroid set to coincide
with the old one. -/
theorem eq_of_maxDisp_zero {d : ℕ} (old upd : List (Vec d)) (hlen : upd.length = old.length)
    (h : maxDisp old upd = 0) : upd = old := by
  apply List.ext_getElem hlen
  intro i h₁ h₂
  have hiz : i < (List.zipWith sqDist old upd).length := by
    rw [List.length_zipWith]
    omega
  have hle := le_foldr_max (List.zipWith sqDist old upd)
    ((List.zipWith sqDist old upd).get ⟨i, hiz⟩) (List.getElem_mem hiz)
  rw [List.get_eq_getElem, List.getElem_zipWith] at hle
  rw [maxDisp] at h
  rw [h] at hle
  have h0 : sqDist old[i] upd[i] = 0 := le_antisymm hle (sqDist_nonneg _ _)
  exact ((sqDist_eq_zero_iff _ _).1 h0).symm

/-- The dataset of the C9 counterexample. -/
def cexPoints : List (Vec 1) := [fun _ => 4, fun _ => 5, fun _ => 11/2, fun _ => 20]

/-- The starting centroid snapshot of the C9 counterexample. -/
def cexCents : List (Vec 1) := [fun _ => 0, fun _ => 10]

/-- C9 counterexample: with tolerance 21, the run on `cexPoints` from
`cexCents` terminates Converged after one iteration (maximum squared
displacement 81/4), yet re-running the Assignment Mapper on the final
centroid set [9/2, 51/4] moves the point 11/2 from cluster 1 to cluster 0,
so the assignment is not reproduced. -/
theorem converged_run_changes_assignment :
    (serialRun cexPoints cexCents 1 21).reason = RunState.converged ∧
    cexPoints.map (fun q => assign q (serialRun cexPoints cexCents 1 21).cents)
      ≠ cexPoints.map (fun q => assign q cexCents) := by
  norm_num [serialRun, serialLoop, maxDisp, lloydStep, updateCentroid, cluster, centroidMean,
    clusterSum, assign, cexPoints, cexCents, sqDist, Fin.sum_univ_succ, List.getD,
    List.range_succ, List.filter_cons, List.filter_nil]

/-- C9 amended: when the run ends with the maximum per-centroid displacement
exactly zero — the converged centroid set is a true fixed point of the update
step — re-running the Assignment Mapper on it reproduces the identical
assignment. -/
theorem assignment_fixed_point_of_zero_disp {d : ℕ} (points cents : List (Vec d))
    (h : maxDisp cents (lloydStep points cents) = 0) :
    points.map (fun q => assign q (lloydStep points cents))
      = points.map (fun q => assign q cents) := by
  rw [eq_of_maxDisp_zero cents (lloydStep points cents) (length_lloydStep points cents) h]

/-- Concrete instantiation of `assignment_fixed_point_of_zero_disp` at a true
fixed point in dimension 1. -/
theorem assignment_fixed_point_of_zero_disp_witness :
    maxDisp ([fun _ => (3:ℚ)] : List (Vec 1))
        (lloydStep ([fun _ => (3:ℚ)] : List (Vec 1)) ([fun _ => (3:ℚ)] : List (Vec 1))) = 0 ∧
    ([fun _ => (3:ℚ)] : List (Vec 1)).map
        (fun q => assign q (lloydStep ([fun _ => (3:ℚ)] : List (Vec 1))
          ([fun _ => (3:ℚ)] : List (Vec 1))))
      = ([fun _ => (3:ℚ)] : List (Vec 1)).map
          (fun q => assign q ([fun _ => (3:ℚ)] : List (Vec 1))) := by
  have h : maxDisp ([fun _ => (3:ℚ)] : List (Vec 1))
      (lloydStep ([fun _ => (3:ℚ)] : List (Vec 1)) ([fun _ => (3:ℚ)] : List (Vec 1))) = 0 := by
    norm_num [maxDisp, lloydStep, updateCentroid, cluster, centroidMean, clusterSum, assign,
      sqDist, Fin.sum_univ_succ, List.getD, List.range_succ, List.filter_cons, List.filter_nil]
  exact ⟨h, assignment_fixed_point_of_zero_disp _ _ h⟩

/-- Modelled from the spec: the first k-means++ centroid is chosen uniformly
at random from the n points — every index below n carries weight 1/n. -/
def firstWeight (n i : ℕ) : ℚ := if i < n then 1 / (n : ℚ) else 0

/-- Modelled from the spec: the sampling weight of point index i in a
k-means++ round — its maintained squared distance d2[i] divided by Σd2. -/
def seedWeight (d2 : List ℚ) (i : ℕ) : ℚ := d2.getD i 0 / d2.sum

/-- Modelled from the spec: after a new centroid c is chosen, every point's
maintained weight becomes min (d2[p], squaredDistance (p, c)). -/
def updateD2 {d : ℕ} (points : List (Vec d)) (d2 : List ℚ) (c : Vec d) : List ℚ :=
  (points.zip d2).map (fun pd => min pd.2 (sqDist pd.1 c))

theorem sum_getD_range (l : List ℚ) :
    ∑ i ∈ Finset.range l.length, l.getD i 0 = l.sum := by
  induction l with
  | nil => simp
  | cons a rest ih =>
    rw [List.length_cons, Finset.sum_range_succ']
    simp only [List.getD_cons_succ, List.getD_cons_zero, List.sum_cons, ih]
    exact add_comm _ _

theorem sum_firstWeight (n : ℕ) (hn : 0 < n) :
    ∑ i ∈ Finset.range n, firstWeight n i = 1 := by
  have hcg : ∀ i ∈ Finset.range n, firstWeight n i = 1 / (n : ℚ) := by
    intro i hi
    rw [firstWeight, if_pos (Finset.mem_range.1 hi)]
  rw [Finset.sum_congr rfl hcg, Finset.sum_const, Finset.card_range]
  have : (n : ℚ) ≠ 0 := by exact_mod_cast Nat.pos_iff_ne_zero.1 hn
  field_simp

theorem sum_seedWeight (d2 : List ℚ) (h : d2.sum ≠ 0) :
    ∑ i ∈ Finset.range d2.length, seedWeight d2 i = 1 := by
  simp only [seedWeight]
  rw [← Finset.sum_div, sum_getD_range, div_self h]

/-- Extending the chosen-centroid list by one new centroid turns the nearest
distance into the min of the old nearest distance and the distance to the
new centroid. -/
theorem minDistTo_append_singleton {d : ℕ} (chosen : List (Vec d)) (c q : Vec d)
    (hne : chosen ≠ []) :
    minDistTo (chosen ++ [c]) q = min (minDistTo chosen q) (sqDist q c) := by
  have hlen : (chosen ++ [c]).length = chosen.length + 1 := by simp
  have happne : (chosen ++ [c]) ≠ [] := by simp
  apply le_antisymm
  · apply le_min
    · have hj : assign q chosen < (chosen ++ [c]).length := by
        rw [hlen]
        exact Nat.lt_succ_of_lt (assign_lt_length q chosen hne)
      have hmin := assign_min q (chosen ++ [c]) (assign q chosen) hj
      rw [List.getD_append _ _ _ _ (assign_lt_length q chosen hne)] at hmin
      exact hmin
    · have hj : chosen.length < (chosen ++ [c]).length := by
        rw [hlen]
        omega
      have hmin := assign_min q (chosen ++ [c]) chosen.length hj
      rw [List.getD_append_right _ _ _ _ (le_refl _), Nat.sub_self,
        List.getD_cons_zero] at hmin
      exact hmin
  · have hja := assign_lt_length q (chosen ++ [c]) happne
    by_cases hlt : assign q (chosen ++ [c]) < chosen.length
    · have hval : minDistTo (chosen ++ [c]) q
          = sqDist q (chosen.getD (assign q (chosen ++ [c])) (zv d)) := by
        rw [minDistTo, List.getD_append _ _ _ _ hlt]
      rw [hval]
      exact le_trans (min_le_left _ _) (assign_min q chosen _ hlt)
    · push_neg at hlt
      have heq : assign q (chosen ++ [c]) = chosen.length := by
        rw [hlen] at hja
        omega
      have hval : minDistTo (chosen ++ [c]) q = sqDist q c := by
        rw [minDistTo, heq, List.getD_append_right _ _ _ _ (le_refl _)]
        simp
      rw [hval]
      exact min_le_right _ _

/-- The incremental d2 update keeps d2 equal to the true squared distance to
the nearest chosen centroid, for every point. -/
theorem updateD2_invariant {d : ℕ} (points chosen : List (Vec d)) (c : Vec d)
    (hne : chosen ≠ []) :
    updateD2 points (points.map (fun q => minDistTo chosen q)) c
      = points.map (fun q => minDistTo (chosen ++ [c]) q) := by
  induction points with
  | nil => rfl
  | cons q rest ih =>
    show min (minDistTo chosen q) (sqDist q c)
        :: updateD2 rest (rest.map (fun x => minDistTo chosen x)) c
      = minDistTo (chosen ++ [c]) q :: rest.map (fun x => minDistTo (chosen ++ [c]) x)
    rw [ih, minDistTo_append_singleton chosen c q hne]

/-- C6: k-means++ seeding — the first centroid is uniform over the n points
(weights 1/n, total probability 1); each later round samples point p with
probability d2[p] / Σd2 (weights totalling 1 when Σd2 ≠ 0); and after adding
the new centroid the maintained d2 is updated to
min (d2[p], squaredDistance (p, new centroid)), which keeps d2 equal to the
squared distance to the nearest already-chosen centroid. -/
theorem kmeanspp_seeding_spec {d : ℕ} (points chosen : List (Vec d)) (c : Vec d)
    (n : ℕ) (hn : 0 < n) (d2 : List ℚ) (hsum : d2.sum ≠ 0) (hne : chosen ≠ []) :
    (∑ i ∈ Finset.range n, firstWeight n i = 1) ∧
    (∀ i, seedWeight d2 i = d2.getD i 0 / d2.sum) ∧
    (∑ i ∈ Finset.range d2.length, seedWeight d2 i = 1) ∧
    updateD2 points (points.map (fun q => minDistTo chosen q)) c
      = points.map (fun q => minDistTo (chosen ++ [c]) q) :=
  ⟨sum_firstWeight n hn, fun _ => rfl, sum_seedWeight d2 hsum,
    updateD2_invariant points chosen c hne⟩

/-- Concrete instantiation of `kmeanspp_seeding_spec` in dimension 1. -/
theorem kmeanspp_seeding_spec_witness :
    (∑ i ∈ Finset.range 2, firstWeight 2 i = 1) ∧
    (∀ i, seedWeight [1, 3] i = List.getD [1, 3] i 0 / List.sum [1, 3]) ∧
    (∑ i ∈ Finset.range (List.length [(1:ℚ), 3]), seedWeight [1, 3] i = 1) ∧
    updateD2 ([fun _ => (4:ℚ)] : List (Vec 1))
        (([fun _ => (4:ℚ)] : List (Vec 1)).map
          (fun q => minDistTo ([fun _ => (0:ℚ)] : List (Vec 1)) q)) (fun _ => (5:ℚ))
      = ([fun _ => (4:ℚ)] : List (Vec 1)).map
          (fun q => minDistTo (([fun _ => (0:ℚ)] : List (Vec 1)) ++ [fun _ => (5:ℚ)]) q) :=
  kmeanspp_seeding_spec _ _ _ 2 (by norm_num) [1, 3] (by norm_num)
    (List.cons_ne_nil _ _)

/-- The error kinds of the validation and seeding stages. -/
inductive KErr where
  | invalidConfig : KErr
  | insufficientDistinctPoints : KErr
deriving DecidableEq

/-- Modelled from the spec: the number of distinct point locations in the
dataset. -/
def distinctCount {d : ℕ} (points : List (Vec d)) : ℕ := points.dedup.length

/-- Modelled from the spec: configuration validation — k < 1, k greater than
the number of distinct point locations, or maxIterations < 1 is rejected as
InvalidConfig. -/
def validateConfig {d : ℕ} (points : List (Vec d)) (k maxIter : ℕ) : Option KErr :=
  if k < 1 ∨ distinctCount points < k ∨ maxIter < 1 then some KErr.invalidConfig else none

/-- Modelled from the spec: the guarded driver — reject an invalid
configuration before any iteration runs, otherwise run the loop. -/
def kmeansRun {d : ℕ} (points cents : List (Vec d)) (k maxIter : ℕ) (tol : ℚ) :
    Except KErr (RunResult d) :=
  match validateConfig points k maxIter with
  | some e => Except.error e
  | none => Except.ok (serialRun points cents maxIter tol)

/-- Modelled from the spec: the Seeder fails with InsufficientDistinctPoints
exactly when k exceeds the number of distinct point locations. -/
def seederCheck {d : ℕ} (points : List (Vec d)) (k : ℕ) : Option KErr :=
  if distinctCount points < k then some KErr.insufficientDistinctPoints else none

/-- Modelled from the spec: one seeding round's normalized sampling weights,
falling back to uniform sampling over the remaining points when Σd2 = 0
instead of failing. -/
def roundWeights (d2 : List ℚ) : List ℚ :=
  if d2.sum = 0 then d2.map (fun _ => 1 / (d2.length : ℚ))
  else d2.map (fun w => w / d2.sum)

/-- C7: a configuration with k < 1, k above the distinct point count, or
maxIterations < 1 is rejected as InvalidConfig with no iteration run; the
Seeder reports InsufficientDistinctPoints exactly when k exceeds the distinct
locations; and when Σd2 = 0 the seeding round degrades to uniform weights
over the remaining points instead of failing. -/
theorem error_handling_spec {d : ℕ} (points cents : List (Vec d)) (k maxIter : ℕ)
    (tol : ℚ) (d2 : List ℚ) :
    (validateConfig points k maxIter = some KErr.invalidConfig
      ↔ (k < 1 ∨ distinctCount points < k ∨ maxIter < 1)) ∧
    ((k < 1 ∨ distinctCount points < k ∨ maxIter < 1) →
      kmeansRun points cents k maxIter tol = Except.error KErr.invalidConfig) ∧
    (seederCheck points k = some KErr.insufficientDistinctPoints
      ↔ distinctCount points < k) ∧
    (d2.sum = 0 → roundWeights d2 = d2.map (fun _ => 1 / (d2.length : ℚ))) := by
  refine ⟨?_, ?_, ?_, ?_⟩
  · rw [validateConfig]
    split
    · rename_i hcond
      simp [hcond]
      omega
    · rename_i hcond
      simp [hcond]
      omega
  · intro h
    have hv : validateConfig points k maxIter = some KErr.invalidConfig := by
      rw [validateConfig, if_pos h]
    rw [kmeansRun, hv]
  · rw [seederCheck]
    split
    · rename_i hcond
      simp [hcond]
    · rename_i hcond
      simp [hcond]
  · intro h
    rw [roundWeights, if_pos h]

/-- Concrete instantiation of `error_handling_spec` with k = 5 against a
single distinct point. -/
theorem error_handling_spec_witness :
    (validateConfig ([fun _ => (4:ℚ)] : List (Vec 1)) 5 3 = some KErr.invalidConfig
      ↔ (5 < 1 ∨ distinctCount ([fun _ => (4:ℚ)] : List (Vec 1)) < 5 ∨ 3 < 1)) ∧
    ((5 < 1 ∨ distinctCount ([fun _ => (4:ℚ)] : List (Vec 1)) < 5 ∨ 3 < 1) →
      kmeansRun ([fun _ => (4:ℚ)] : List (Vec 1)) ([fun _ => (4:ℚ)] : List (Vec 1)) 5 3 1
        = Except.error KErr.invalidConfig) ∧
    (seederCheck ([fun _ => (4:ℚ)] : List (Vec 1)) 5 = some KErr.insufficientDistinctPoints
      ↔ distinctCount ([fun _ => (4:ℚ)] : List (Vec 1)) < 5) ∧
    (List.sum [(0:ℚ), 0] = 0 →
      roundWeights [(0:ℚ), 0]
        = List.map (fun _ => 1 / (List.length [(0:ℚ), 0] : ℚ)) [(0:ℚ), 0]) :=
  error_handling_spec _ _ 5 3 1 [0, 0]

/-- Concrete instantiation of `convergence_controller_spec` at tolerance 1,
budget 5. -/
theorem convergence_controller_spec_witness :
    (stepState 1 5 2 (1/2) RunState.converged = RunState.converged) ∧
    (stepState 1 5 2 (1/2) RunState.budgetExhausted = RunState.budgetExhausted) ∧
    (stepState 1 5 2 (1/2) RunState.running = RunState.converged ↔ (1/2 : ℚ) < 1) ∧
    (stepState 1 5 2 (1/2) RunState.running = RunState.budgetExhausted
      ↔ (¬ (1/2 : ℚ) < 1 ∧ 5 ≤ 2)) ∧
    (serialLoop ([fun _ => (4:ℚ)] : List (Vec 1)) 1 3
        ([fun _ => (0:ℚ)] : List (Vec 1)) 0).reason ≠ RunState.running :=
  convergence_controller_spec 1 5 2 (1/2) ([fun _ => (4:ℚ)] : List (Vec 1))
    ([fun _ => (0:ℚ)] : List (Vec 1)) 3 0

/-- Concrete instantiation of `driver_loop_bounded` with budget 4. -/
theorem driver_loop_bounded_witness :
    (serialRun ([fun _ => (4:ℚ)] : List (Vec 1)) ([fun _ => (0:ℚ)] : List (Vec 1)) 4 1).iters
      ≤ 4 :=
  driver_loop_bounded _ _ 4 1

end KMeansSpec
